import Mathlib

/-
Verification development for the private-treasury withdrawal script
(`scripts/withdraw.ts`-style orchestration file).

The script's own functions (`getDepositHistory`, `checkLeafOwnership`,
`genGroth16Proof`, `proveSanityCheck`, `sendProofTx`, `reconstructMerkleTree`,
the main IIFE, and the constants `LEAF_IDX` / `TREE_DEPTH`) are embedded
shallowly below.  External collaborators (the ethers contract, the poseidon
hash, the babyjubjub ownership check, the groth16 engine, and the
maci-crypto IncrementalQuinTree) are not part of the repository source, so
they are modelled from the specification: hash functions and the ownership
predicate are explicit parameters, network interactions are recorded as an
explicit effect trace, and the accumulator is an executable incremental
Merkle tree with the frontier cache the specification describes.
-/

/-- Constant from the source: index into the list of owned leaves that the
script withdraws, and also the first argument of the on-chain withdraw call. -/
def LEAF_IDX : Nat := 1

/-- Constant from the source: depth of the reconstructed Merkle tree. -/
def TREE_DEPTH : Nat := 32

/-- Modelled from the spec: the canonical nothing-up-my-sleeve empty-hash
constant imported from the external maci-crypto package.  Its exact numeric
value lives outside this repository; the claims depend only on it being one
fixed constant, used for every unfilled position. -/
def NOTHING_UP_MY_SLEEVE : Nat :=
  8370432830353022751713833565135785980866757267633941821328460903436894336785

/-- A babyjubjub curve point as it appears in the client's Leaf record. -/
structure Point where
  x : Nat
  y : Nat
  deriving DecidableEq

/-- The client-side deposit record (class Leaf of the source): masked points
P and Q and the deposited value v. -/
structure Leaf where
  P : Point
  Q : Point
  v : Nat
  deriving DecidableEq

/-- A solidity curve point (bytes32 coordinates) from the NewLeaf event. -/
structure SolPoint where
  x : Nat
  y : Nat
  deriving DecidableEq

/-- The solidity event payload: struct PrivateTreasury.Leaf from the ABI. -/
structure SolLeaf where
  P : SolPoint
  Q : SolPoint
  v : Nat
  deriving DecidableEq

/-- Modelled from the spec: Leaf.fromSol (class Leaf lives in Leaf.ts, which
is not part of the source tree); converts the solidity event tuple into the
client Leaf record field by field. -/
def Leaf.fromSol (s : SolLeaf) : Leaf :=
  ⟨⟨s.P.x, s.P.y⟩, ⟨s.Q.x, s.Q.y⟩, s.v⟩

/-- Embedding of getDepositHistory: the list of NewLeaf events is the input
(the network read is recorded in the run trace); each event is converted with
Leaf.fromSol and hashed independently with the poseidon hash, which is a
parameter because circomlibjs is external to the repository. -/
def getDepositHistory (poseidon : Leaf → Nat) (newLeafEvents : List SolLeaf) :
    List Leaf × List Nat :=
  let leafHistory := newLeafEvents.map Leaf.fromSol
  let leafHashes := leafHistory.map poseidon
  (leafHistory, leafHashes)

/-- Embedding of checkLeafOwnership: the source reduces over the history with
the running index, pushing every index whose leaf satisfies checkQDerivation
for the treasury private key.  The ownership test (babyjubjub, external) is
the parameter ownedBy. -/
def checkLeafOwnership (ownedBy : Leaf → Bool) (leafHistory : List Leaf) :
    List Nat :=
  leafHistory.enum.foldl
    (fun a p => if ownedBy p.2 then a ++ [p.1] else a) []

/-- Modelled from the spec: the ladder of empty-subtree hashes; zeros 0 is the
empty-leaf constant and each next level hashes two copies of the previous. -/
def zeros (h : Nat → Nat → Nat) (z : Nat) : Nat → Nat
  | 0 => z
  | d + 1 => let w := zeros h z d; h w w

/-- Modelled from the spec: the root of the depth-d binary subtree whose
occupied leaves are the list ls (left aligned) and whose unfilled positions
are padded with the zeros ladder of z.  This is the pure batch description of
the accumulator root. -/
def buildNode (h : Nat → Nat → Nat) (z : Nat) : Nat → List Nat → Nat
  | 0, ls => ls.headD z
  | d + 1, [] => zeros h z (d + 1)
  | d + 1, a :: ls =>
      h (buildNode h z d ((a :: ls).take (2 ^ d)))
        (buildNode h z d ((a :: ls).drop (2 ^ d)))

/-- The leaf segment owned by node k of level lvl: 2 ^ lvl consecutive leaves
starting at position k * 2 ^ lvl. -/
def leafSeg (lvl k : Nat) (ls : List Nat) : List Nat :=
  (ls.drop (k * 2 ^ lvl)).take (2 ^ lvl)

/-- Modelled from the spec: the maci-crypto IncrementalQuinTree as used by the
script, with branching factor 2.  State is the inserted leaf sequence plus the
derived caches: the per-level frontier of filled subtrees, the current root,
and the next free leaf index.  The hash function is stored in the structure
because the concrete poseidon implementation is external. -/
structure IncrementalQuinTree where
  depth : Nat
  zeroValue : Nat
  leavesPerNode : Nat
  hashFn : Nat → Nat → Nat
  nextIndex : Nat
  filledSubtrees : List Nat
  root : Nat
  leaves : List Nat

/-- Modelled from the spec: the constructor new IncrementalQuinTree(depth,
zeroValue, leavesPerNode): empty leaf sequence, frontier initialised per
level, root of the all-empty tree. -/
def IncrementalQuinTree.init (h : Nat → Nat → Nat) (depth z arity : Nat) :
    IncrementalQuinTree :=
  { depth := depth
    zeroValue := z
    leavesPerNode := arity
    hashFn := h
    nextIndex := 0
    filledSubtrees := List.replicate depth z
    root := zeros h z depth
    leaves := [] }

/-- Modelled from the spec: one bottom-up pass of insert.  Walks the frontier
from level 0 upward carrying the freshly computed node cur, the position idx
of that node in its level, and the empty-hash z of the current level; at an
even position the node becomes the new frontier entry and is hashed against
the empty subtree, at an odd position it is hashed against the cached left
sibling.  Returns the updated frontier and the new root. -/
def insertLoop (h : Nat → Nat → Nat) :
    List Nat → Nat → Nat → Nat → List Nat × Nat
  | [], _, cur, _ => ([], cur)
  | f :: fs, idx, cur, z =>
      if idx % 2 = 0 then
        let p := insertLoop h fs (idx / 2) (h cur z) (h z z)
        (cur :: p.1, p.2)
      else
        let p := insertLoop h fs (idx / 2) (h f cur) (h z z)
        (f :: p.1, p.2)

/-- Modelled from the spec: insert(leafHash) appends one leaf at the next free
position and updates the frontier and root caches in O(depth). -/
def IncrementalQuinTree.insert (t : IncrementalQuinTree) (lf : Nat) :
    IncrementalQuinTree :=
  let p := insertLoop t.hashFn t.filledSubtrees t.nextIndex lf t.zeroValue
  { t with
    nextIndex := t.nextIndex + 1
    filledSubtrees := p.1
    root := p.2
    leaves := t.leaves ++ [lf] }

/-- Modelled from the spec: the inclusion path for leaf i of a depth-d subtree
over the leaf list ls, bottom-up, as (sibling-hash, branch-selector) pairs;
selector 0 means the running node is the left child at that level. -/
def genMerklePathAux (h : Nat → Nat → Nat) (z : Nat) :
    Nat → List Nat → Nat → List (Nat × Nat)
  | 0, _, _ => []
  | d + 1, ls, i =>
      if i < 2 ^ d then
        genMerklePathAux h z d (ls.take (2 ^ d)) i ++
          [(buildNode h z d (ls.drop (2 ^ d)), 0)]
      else
        genMerklePathAux h z d (ls.drop (2 ^ d)) (i - 2 ^ d) ++
          [(buildNode h z d (ls.take (2 ^ d)), 1)]

/-- Modelled from the spec: tree.genMerklePath(i) derives the inclusion path
from the accumulator state (its stored leaf sequence) and the leaf index. -/
def IncrementalQuinTree.genMerklePath (t : IncrementalQuinTree) (i : Nat) :
    List (Nat × Nat) :=
  genMerklePathAux t.hashFn t.zeroValue t.depth t.leaves i

/-- Modelled from the spec: leaf-to-root recomputation along an inclusion
path, hashing the running node with each sibling on the side the branch
selector dictates. -/
def verifyMerklePath (h : Nat → Nat → Nat) (leaf : Nat)
    (path : List (Nat × Nat)) : Nat :=
  path.foldl (fun cur p => if p.2 = 0 then h cur p.1 else h p.1 cur) leaf

/-- Embedding of reconstructMerkleTree: a fresh IncrementalQuinTree of depth
TREE_DEPTH, zero value NOTHING_UP_MY_SLEEVE and branching factor 2, into
which every leaf hash is inserted in ledger order.  The root comparison
against the contract is only printed by the source, so it does not appear in
the value; the contract root read is recorded in the run trace. -/
def reconstructMerkleTree (h : Nat → Nat → Nat) (leafHashes : List Nat) :
    IncrementalQuinTree :=
  leafHashes.foldl IncrementalQuinTree.insert
    (IncrementalQuinTree.init h TREE_DEPTH NOTHING_UP_MY_SLEEVE 2)

/-- The proof bundle: the opaque groth16 proof is irrelevant to the claims,
the public signals (root, leaf index, value, masked points) are kept.
Modelled from the spec: the engine computes the public signals from the
witness it was given. -/
structure ProofBundle where
  leafIndex : Nat
  root : Nat
  value : Nat
  P : Point
  Q : Point
  deriving DecidableEq

/-- Embedding of genGroth16Proof: the external engine is called with the
chosen leaf, its index, the reconstructed root, the secret and the inclusion
path, and returns a bundle whose public signals are computed from that
witness (spec 4.4); the private inputs do not appear in the bundle. -/
def genGroth16Proof (lf : Leaf) (lfIdx : Nat) (root : Nat) : ProofBundle :=
  { leafIndex := lfIdx, root := root, value := lf.v, P := lf.P, Q := lf.Q }

/-- One externally observable interaction of the script: the two contract
reads, the two groth16 engine calls, the signer balance read, and the
state-mutating withdraw call with its leaf-index argument and its
public-signal calldata vector. -/
inductive Effect where
  | queryNewLeafEvents : Effect
  | queryRoot : Effect
  | proveCall : Nat → Effect
  | verifyCall : Effect
  | getBalance : Effect
  | withdrawCall : Nat → List Nat → Effect
  deriving DecidableEq

/-- True exactly on the state-mutating withdraw call. -/
def Effect.isWithdraw : Effect → Bool
  | .withdrawCall _ _ => true
  | _ => false

/-- True exactly on interactions with the treasury contract (reads or the
withdraw write); the groth16 engine and the signer balance are not contract
interactions. -/
def Effect.isContractCall : Effect → Bool
  | .queryNewLeafEvents => true
  | .queryRoot => true
  | .withdrawCall _ _ => true
  | _ => false

/-- True exactly on calls to the proving engine. -/
def Effect.isProve : Effect → Bool
  | .proveCall _ => true
  | _ => false

/-- Leaf-index argument of the first withdraw call in a trace, if any. -/
def withdrawIdxOf (es : List Effect) : Option Nat :=
  es.findSome? fun e =>
    match e with
    | .withdrawCall i _ => some i
    | _ => none

/-- Embedding of proveSanityCheck: it calls groth16.verify and only prints
the outcome; the boolean result is dropped, nothing is returned and no
control flow depends on it. -/
def proveSanityCheck : Bool → List Effect :=
  fun _ => [Effect.verifyCall]

/-- Modelled from the spec: Utils.exportCallDataGroth16 (utils.ts is not in
the source tree) maps the bundle into the settlement call shape; the three
opaque proof group elements play no role in any claim and are omitted, and
the public-signal vector is kept in circuit order. -/
def exportCallDataGroth16 (b : ProofBundle) : List Nat :=
  [b.root, b.leafIndex, b.value, b.P.x, b.P.y, b.Q.x, b.Q.y]

/-- Embedding of sendProofTx: reads the signer balance, formats the bundle
into calldata, dispatches withdraw with the constant LEAF_IDX as the
leaf-index argument, and reads the balance again. -/
def sendProofTx (bundle : ProofBundle) : List Effect :=
  [Effect.getBalance,
   Effect.withdrawCall LEAF_IDX (exportCallDataGroth16 bundle),
   Effect.getBalance]

/-- How a run of the script ends.  The source only ever completes or crashes
on the undefined owned-leaf index; integrityError and ownershipError are the
outcomes the specification's error taxonomy (spec 7) demands and exist so
that the corresponding claims are statable. -/
inductive Outcome where
  | completed : Outcome
  | indexCrash : Outcome
  | integrityError : Outcome
  | ownershipError : Outcome
  deriving DecidableEq

/-- Result of one run: the ordered effect trace, the outcome, and the proof
bundle when the proving engine was reached. -/
structure RunResult where
  trace : List Effect
  outcome : Outcome
  bundle : Option ProofBundle
  deriving DecidableEq

/-- The environment and external results one run of the script consumes: the
NewLeaf events the contract returns, the external hash functions and
ownership predicate, the root the contract reports, and the verdict
groth16.verify returns on the generated proof. -/
structure PipelineInput where
  events : List SolLeaf
  poseidon : Leaf → Nat
  ownedBy : Leaf → Bool
  hash2 : Nat → Nat → Nat
  ledgerRoot : Nat
  verifyResult : Bool

/-- Embedding of the main IIFE: fetch the deposit history, scan for owned
leaves, reconstruct the tree (reading the contract root, which the source
only prints), then index the owned list at LEAF_IDX.  When that index exists
the inclusion path is generated, the proving engine is called on the chosen
leaf, and proveSanityCheck runs; sendProofTx is commented out in the source,
so no withdraw call is ever appended.  When the owned list is too short the
script dereferences undefined and crashes before reaching the engine. -/
def mainRun (inp : PipelineInput) : RunResult :=
  let hist := getDepositHistory inp.poseidon inp.events
  let ownedLeaves := checkLeafOwnership inp.ownedBy hist.1
  let tree := reconstructMerkleTree inp.hash2 hist.2
  if h : LEAF_IDX < ownedLeaves.length then
    let lfIdx := ownedLeaves.get ⟨LEAF_IDX, h⟩
    let bundle := genGroth16Proof
      (hist.1.getD lfIdx ⟨⟨0, 0⟩, ⟨0, 0⟩, 0⟩) lfIdx tree.root
    { trace := [Effect.queryNewLeafEvents, Effect.queryRoot,
        Effect.proveCall lfIdx] ++ proveSanityCheck inp.verifyResult
      outcome := Outcome.completed
      bundle := some bundle }
  else
    { trace := [Effect.queryNewLeafEvents, Effect.queryRoot]
      outcome := Outcome.indexCrash
      bundle := none }

/-- The root the script reconstructs locally from the fetched history. -/
def localRootOf (inp : PipelineInput) : Nat :=
  (reconstructMerkleTree inp.hash2 (getDepositHistory inp.poseidon inp.events).2).root

/-- The owned-leaf indices a run finds. -/
def ownedOf (inp : PipelineInput) : List Nat :=
  checkLeafOwnership inp.ownedBy (getDepositHistory inp.poseidon inp.events).1

/-- Concrete two-argument hash used by the concrete witness inputs; only the
claims' hypotheses care about its value, so a simple injective-enough
asymmetric function keeps kernel evaluation cheap. -/
def cexHash : Nat → Nat → Nat := fun a b => 2 * a + 3 * b + 1

/-- Concrete poseidon stand-in for witness inputs. -/
def cexPoseidon : Leaf → Nat := fun lf => lf.v + 7

/-- Two concrete NewLeaf events. -/
def cexEvents2 : List SolLeaf :=
  [⟨⟨1, 2⟩, ⟨3, 4⟩, 10⟩, ⟨⟨5, 6⟩, ⟨7, 8⟩, 11⟩]

/-- Three concrete NewLeaf events with values 20, 21, 22. -/
def cexEvents3 : List SolLeaf :=
  [⟨⟨1, 2⟩, ⟨3, 4⟩, 20⟩, ⟨⟨5, 6⟩, ⟨7, 8⟩, 21⟩, ⟨⟨9, 10⟩, ⟨11, 12⟩, 22⟩]

/-- Concrete run input whose ledger root deliberately differs from the
locally reconstructed root (it is that root plus one) while both events are
owned, so the run reaches the proving engine. -/
def cexInpMismatch : PipelineInput :=
  { events := cexEvents2
    poseidon := cexPoseidon
    ownedBy := fun _ => true
    hash2 := cexHash
    ledgerRoot :=
      (reconstructMerkleTree cexHash
        (getDepositHistory cexPoseidon cexEvents2).2).root + 1
    verifyResult := true }

/-- Concrete run input on the empty deposit history. -/
def cexInpEmpty : PipelineInput :=
  { events := []
    poseidon := cexPoseidon
    ownedBy := fun _ => true
    hash2 := cexHash
    ledgerRoot := 0
    verifyResult := true }

/-- Concrete run input where exactly the records with even value (indices 0
and 2) are owned, so the proved leaf index is ownedLeaves[1] = 2. -/
def cexInpTwoOwned : PipelineInput :=
  { events := cexEvents3
    poseidon := cexPoseidon
    ownedBy := fun lf => lf.v % 2 = 0
    hash2 := cexHash
    ledgerRoot := 0
    verifyResult := true }

/-- Concrete run input whose local verification fails. -/
def cexInpBadProof : PipelineInput :=
  { events := cexEvents2
    poseidon := cexPoseidon
    ownedBy := fun _ => true
    hash2 := cexHash
    ledgerRoot := 0
    verifyResult := false }

/-- The proof bundle produced by the two-owned run (default never used since
that run reaches the engine). -/
def cexBundle : ProofBundle :=
  ((mainRun cexInpTwoOwned).bundle).getD ⟨0, 0, 0, ⟨0, 0⟩, ⟨0, 0⟩⟩

/-- Concrete leaf-hash sequence for accumulator witnesses. -/
def cexLeaves : List Nat := [3, 5, 9]

theorem zeros_succ (h : Nat → Nat → Nat) (z d : Nat) :
    zeros h z (d + 1) = h (zeros h z d) (zeros h z d) := rfl

theorem buildNode_nil (h : Nat → Nat → Nat) (z : Nat) :
    ∀ d, buildNode h z d [] = zeros h z d
  | 0 => rfl
  | _ + 1 => rfl

theorem buildNode_succ (h : Nat → Nat → Nat) (z d : Nat) (ls : List Nat) :
    buildNode h z (d + 1) ls =
      h (buildNode h z d (ls.take (2 ^ d))) (buildNode h z d (ls.drop (2 ^ d))) := by
  cases ls with
  | nil => simp [buildNode_nil, zeros_succ]
  | cons a l => rfl

theorem leafSeg_take (l q : Nat) (ls : List Nat) :
    (leafSeg (l + 1) q ls).take (2 ^ l) = leafSeg l (2 * q) ls := by
  unfold leafSeg
  rw [List.take_take,
    Nat.min_eq_left (Nat.pow_le_pow_right (by norm_num) (Nat.le_succ l))]
  have e : q * 2 ^ (l + 1) = 2 * q * 2 ^ l := by rw [pow_succ]; ring
  rw [e]

theorem leafSeg_drop (l q : Nat) (ls : List Nat) :
    (leafSeg (l + 1) q ls).drop (2 ^ l) = leafSeg l (2 * q + 1) ls := by
  unfold leafSeg
  rw [List.drop_take, List.drop_drop]
  have e1 : q * 2 ^ (l + 1) + 2 ^ l = (2 * q + 1) * 2 ^ l := by
    rw [pow_succ]; ring
  have e2 : 2 ^ (l + 1) - 2 ^ l = 2 ^ l := by
    have : (2:Nat) ^ (l + 1) = 2 ^ l * 2 := pow_succ 2 l
    omega
  rw [e1, e2]

theorem buildNode_leafSeg_split (h : Nat → Nat → Nat) (z l q : Nat)
    (ls : List Nat) :
    buildNode h z (l + 1) (leafSeg (l + 1) q ls) =
      h (buildNode h z l (leafSeg l (2 * q) ls))
        (buildNode h z l (leafSeg l (2 * q + 1) ls)) := by
  rw [buildNode_succ, leafSeg_take, leafSeg_drop]

theorem leafSeg_nil (l k : Nat) (ls : List Nat)
    (hk : ls.length ≤ k * 2 ^ l) : leafSeg l k ls = [] := by
  unfold leafSeg
  rw [List.drop_eq_nil_of_le hk]
  simp

theorem leafSeg_append (l k : Nat) (ls more : List Nat)
    (hk : (k + 1) * 2 ^ l ≤ ls.length) :
    leafSeg l k (ls ++ more) = leafSeg l k ls := by
  unfold leafSeg
  have h1 : k * 2 ^ l ≤ ls.length := by
    calc k * 2 ^ l ≤ (k + 1) * 2 ^ l := Nat.mul_le_mul_right _ (Nat.le_succ k)
      _ ≤ ls.length := hk
  have h2 : 2 ^ l ≤ ls.length - k * 2 ^ l := by
    have e : (k + 1) * 2 ^ l = k * 2 ^ l + 2 ^ l := by ring
    rw [e, Nat.add_comm] at hk
    exact Nat.le_sub_of_add_le hk
  rw [List.drop_append_eq_append_drop, Nat.sub_eq_zero_of_le h1,
    List.drop_zero, List.take_append_of_le_length (by simpa using h2)]

theorem div_pow_succ_eq (n l : Nat) : n / 2 ^ (l + 1) = n / 2 ^ l / 2 := by
  rw [Nat.div_div_eq_div_mul, pow_succ]

theorem lt_succ_div_mul (a b : Nat) (hb : 0 < b) : a < (a / b + 1) * b := by
  have h1 := Nat.div_add_mod a b
  have h2 := Nat.mod_lt a hb
  calc a = b * (a / b) + a % b := h1.symm
    _ < b * (a / b) + b := by omega
    _ = (a / b + 1) * b := by ring

theorem verifyMerklePath_append (h : Nat → Nat → Nat) (leaf : Nat)
    (path : List (Nat × Nat)) (p : Nat × Nat) :
    verifyMerklePath h leaf (path ++ [p]) =
      (if p.2 = 0 then h (verifyMerklePath h leaf path) p.1
       else h p.1 (verifyMerklePath h leaf path)) := by
  unfold verifyMerklePath
  rw [List.foldl_append]
  rfl

theorem genMerklePathAux_spec (h : Nat → Nat → Nat) (z : Nat) :
    ∀ (d : Nat) (ls : List Nat) (i : Nat), i < ls.length →
      ls.length ≤ 2 ^ d →
      verifyMerklePath h (ls.getD i 0) (genMerklePathAux h z d ls i) =
        buildNode h z d ls := by
  intro d
  induction d with
  | zero =>
    intro ls i hi hle
    rw [pow_zero] at hle
    cases ls with
    | nil => simp at hi
    | cons a t =>
      cases t with
      | nil =>
        have : i = 0 := by simpa using hi
        subst this
        rfl
      | cons b u => simp at hle
  | succ d ih =>
    intro ls i hi hle
    by_cases hlt : i < 2 ^ d
    · have e1 : (ls.take (2 ^ d)).getD i 0 = ls.getD i 0 := by
        rw [List.getD_eq_getElem?_getD, List.getD_eq_getElem?_getD,
          List.getElem?_take_of_lt hlt]
      have h1 : i < (ls.take (2 ^ d)).length := by
        simpa using lt_min hlt hi
      have h2 : (ls.take (2 ^ d)).length ≤ 2 ^ d := by
        simp
      have hrec := ih (ls.take (2 ^ d)) i h1 h2
      rw [e1] at hrec
      rw [genMerklePathAux, if_pos hlt, verifyMerklePath_append, hrec,
        buildNode_succ]
      rfl
    · have hge : 2 ^ d ≤ i := Nat.le_of_not_lt hlt
      have e1 : (ls.drop (2 ^ d)).getD (i - 2 ^ d) 0 = ls.getD i 0 := by
        have e : 2 ^ d + (i - 2 ^ d) = i := by omega
        rw [List.getD_eq_getElem?_getD, List.getD_eq_getElem?_getD,
          List.getElem?_drop, e]
      have h1 : i - 2 ^ d < (ls.drop (2 ^ d)).length := by
        rw [List.length_drop]
        omega
      have h2 : (ls.drop (2 ^ d)).length ≤ 2 ^ d := by
        rw [List.length_drop]
        have : (2:Nat) ^ (d + 1) = 2 ^ d * 2 := pow_succ 2 d
        omega
      have hrec := ih (ls.drop (2 ^ d)) (i - 2 ^ d) h1 h2
      rw [e1] at hrec
      rw [genMerklePathAux, if_neg hlt, verifyMerklePath_append, hrec,
        buildNode_succ]
      rfl

theorem checkLeafOwnership_foldl (ownedBy : Leaf → Bool) :
    ∀ (l : List (Nat × Leaf)) (acc : List Nat),
      l.foldl (fun a p => if ownedBy p.2 then a ++ [p.1] else a) acc =
        acc ++ (l.filter (fun p => ownedBy p.2)).map Prod.fst := by
  intro l
  induction l with
  | nil => intro acc; simp
  | cons p l ih =>
    intro acc
    by_cases hp : ownedBy p.2 <;>
      simp [List.filter_cons, hp, ih, List.append_assoc]

theorem checkLeafOwnership_eq (ownedBy : Leaf → Bool) (hist : List Leaf) :
    checkLeafOwnership ownedBy hist =
      (hist.enum.filter (fun p => ownedBy p.2)).map Prod.fst := by
  unfold checkLeafOwnership
  rw [checkLeafOwnership_foldl]
  simp

theorem insertLoop_spec (h : Nat → Nat → Nat) (z : Nat) (snew : List Nat)
    (n : Nat) (hlen : snew.length = n + 1) :
    ∀ (fs : List Nat) (l : Nat),
      (∀ j, j < fs.length → n / 2 ^ (l + j) % 2 = 1 →
        fs.getD j 0 =
          buildNode h z (l + j) (leafSeg (l + j) (n / 2 ^ (l + j) - 1) snew)) →
      (insertLoop h fs (n / 2 ^ l)
          (buildNode h z l (leafSeg l (n / 2 ^ l) snew)) (zeros h z l)).2 =
        buildNode h z (l + fs.length)
          (leafSeg (l + fs.length) (n / 2 ^ (l + fs.length)) snew) ∧
      (insertLoop h fs (n / 2 ^ l)
          (buildNode h z l (leafSeg l (n / 2 ^ l) snew)) (zeros h z l)).1.length =
        fs.length ∧
      (∀ j, j < fs.length → (n + 1) / 2 ^ (l + j) % 2 = 1 →
        (insertLoop h fs (n / 2 ^ l)
            (buildNode h z l (leafSeg l (n / 2 ^ l) snew))
            (zeros h z l)).1.getD j 0 =
          buildNode h z (l + j)
            (leafSeg (l + j) ((n + 1) / 2 ^ (l + j) - 1) snew)) := by
  intro fs
  induction fs with
  | nil =>
    intro l hfs
    refine ⟨by simp [insertLoop], by simp [insertLoop], ?_⟩
    intro j hj
    simp at hj
  | cons f fs ih =>
    intro l hfs
    have hpos : 0 < 2 ^ l := Nat.two_pow_pos l
    have hqle : n / 2 ^ l * 2 ^ l ≤ n := Nat.div_mul_le_self n (2 ^ l)
    have hqlt : n < (n / 2 ^ l + 1) * 2 ^ l := lt_succ_div_mul n (2 ^ l) hpos
    have hdivsucc := Nat.succ_div n (2 ^ l)
    by_cases hq : n / 2 ^ l % 2 = 0
    · -- even position at this level: write cur into the frontier slot and
      -- hash it against the empty subtree on the right
      have hq2 : 2 * (n / 2 ^ (l + 1)) = n / 2 ^ l := by
        rw [div_pow_succ_eq]
        omega
      have hcur : h (buildNode h z l (leafSeg l (n / 2 ^ l) snew)) (zeros h z l) =
          buildNode h z (l + 1) (leafSeg (l + 1) (n / 2 ^ (l + 1)) snew) := by
        rw [buildNode_leafSeg_split, hq2]
        have hnil : leafSeg l (n / 2 ^ l + 1) snew = [] := by
          apply leafSeg_nil
          rw [hlen]
          exact Nat.succ_le_of_lt hqlt
        rw [hnil, buildNode_nil]
      have hfs' : ∀ j, j < fs.length → n / 2 ^ (l + 1 + j) % 2 = 1 →
          fs.getD j 0 =
            buildNode h z (l + 1 + j)
              (leafSeg (l + 1 + j) (n / 2 ^ (l + 1 + j) - 1) snew) := by
        intro j hj hpar
        have e : l + 1 + j = l + (j + 1) := by omega
        rw [e] at hpar ⊢
        have := hfs (j + 1) (by simpa using Nat.succ_lt_succ hj) hpar
        simpa using this
      obtain ⟨ih1, ih2, ih3⟩ := ih (l + 1) hfs'
      have estep : insertLoop h (f :: fs) (n / 2 ^ l)
          (buildNode h z l (leafSeg l (n / 2 ^ l) snew)) (zeros h z l) =
          (buildNode h z l (leafSeg l (n / 2 ^ l) snew) ::
            (insertLoop h fs (n / 2 ^ (l + 1))
              (buildNode h z (l + 1) (leafSeg (l + 1) (n / 2 ^ (l + 1)) snew))
              (zeros h z (l + 1))).1,
            (insertLoop h fs (n / 2 ^ (l + 1))
              (buildNode h z (l + 1) (leafSeg (l + 1) (n / 2 ^ (l + 1)) snew))
              (zeros h z (l + 1))).2) := by
        rw [insertLoop, if_pos hq, hcur, ← zeros_succ h z l, ← div_pow_succ_eq]
      refine ⟨?_, ?_, ?_⟩
      · rw [estep]
        have e : l + 1 + fs.length = l + (f :: fs).length := by simp; omega
        rw [← e]
        exact ih1
      · rw [estep]
        simp [ih2]
      · intro j hj hpar
        rw [estep]
        cases j with
        | zero =>
          simp only [List.getD_cons_zero]
          simp only [Nat.add_zero] at hpar
          by_cases hdvd : 2 ^ l ∣ n + 1
          · rw [if_pos hdvd] at hdivsucc
            rw [Nat.add_zero, hdivsucc]
            simp
          · rw [if_neg hdvd] at hdivsucc
            rw [hdivsucc, Nat.add_zero] at hpar
            omega
        | succ j =>
          simp only [List.getD_cons_succ]
          have e : l + (j + 1) = l + 1 + j := by omega
          rw [e]
          apply ih3 j (by simpa using hj)
          rw [← e]
          exact hpar
    · -- odd position at this level: read the cached left sibling
      have hq1 : n / 2 ^ l % 2 = 1 := by omega
      have hq2 : 2 * (n / 2 ^ (l + 1)) + 1 = n / 2 ^ l := by
        rw [div_pow_succ_eq]
        omega
      have hf : f = buildNode h z l (leafSeg l (n / 2 ^ l - 1) snew) := by
        have := hfs 0 (by simp) (by simpa using hq1)
        simpa using this
      have hcur : h f (buildNode h z l (leafSeg l (n / 2 ^ l) snew)) =
          buildNode h z (l + 1) (leafSeg (l + 1) (n / 2 ^ (l + 1)) snew) := by
        rw [buildNode_leafSeg_split, hq2]
        have e2 : 2 * (n / 2 ^ (l + 1)) = n / 2 ^ l - 1 := by omega
        rw [e2, ← hf]
      have hfs' : ∀ j, j < fs.length → n / 2 ^ (l + 1 + j) % 2 = 1 →
          fs.getD j 0 =
            buildNode h z (l + 1 + j)
              (leafSeg (l + 1 + j) (n / 2 ^ (l + 1 + j) - 1) snew) := by
        intro j hj hpar
        have e : l + 1 + j = l + (j + 1) := by omega
        rw [e] at hpar ⊢
        have := hfs (j + 1) (by simpa using Nat.succ_lt_succ hj) hpar
        simpa using this
      obtain ⟨ih1, ih2, ih3⟩ := ih (l + 1) hfs'
      have estep : insertLoop h (f :: fs) (n / 2 ^ l)
          (buildNode h z l (leafSeg l (n / 2 ^ l) snew)) (zeros h z l) =
          (f ::
            (insertLoop h fs (n / 2 ^ (l + 1))
              (buildNode h z (l + 1) (leafSeg (l + 1) (n / 2 ^ (l + 1)) snew))
              (zeros h z (l + 1))).1,
            (insertLoop h fs (n / 2 ^ (l + 1))
              (buildNode h z (l + 1) (leafSeg (l + 1) (n / 2 ^ (l + 1)) snew))
              (zeros h z (l + 1))).2) := by
        rw [insertLoop, if_neg (by omega), hcur, ← zeros_succ h z l, ← div_pow_succ_eq]
      refine ⟨?_, ?_, ?_⟩
      · rw [estep]
        have e : l + 1 + fs.length = l + (f :: fs).length := by simp; omega
        rw [← e]
        exact ih1
      · rw [estep]
        simp [ih2]
      · intro j hj hpar
        rw [estep]
        cases j with
        | zero =>
          simp only [List.getD_cons_zero]
          simp only [Nat.add_zero] at hpar
          by_cases hdvd : 2 ^ l ∣ n + 1
          · rw [if_pos hdvd] at hdivsucc
            rw [hdivsucc] at hpar
            omega
          · rw [if_neg hdvd] at hdivsucc
            rw [Nat.add_zero, hdivsucc, Nat.add_zero]
            exact hf
        | succ j =>
          simp only [List.getD_cons_succ]
          have e : l + (j + 1) = l + 1 + j := by omega
          rw [e]
          apply ih3 j (by simpa using hj)
          rw [← e]
          exact hpar

theorem zeros_zero (h : Nat → Nat → Nat) (z : Nat) : zeros h z 0 = z := rfl

theorem insert_spec (h : Nat → Nat → Nat) (s : List Nat) (lf : Nat)
    (t : IncrementalQuinTree)
    (hd : t.depth = TREE_DEPTH) (hz : t.zeroValue = NOTHING_UP_MY_SLEEVE)
    (ha : t.leavesPerNode = 2) (hh : t.hashFn = h)
    (hn : t.nextIndex = s.length) (hl : t.leaves = s)
    (hf : t.filledSubtrees.length = TREE_DEPTH)
    (hinv : ∀ l, l < TREE_DEPTH → s.length / 2 ^ l % 2 = 1 →
      t.filledSubtrees.getD l 0 =
        buildNode h NOTHING_UP_MY_SLEEVE l
          (leafSeg l (s.length / 2 ^ l - 1) s))
    (hcap : s.length + 1 ≤ 2 ^ TREE_DEPTH) :
    (t.insert lf).depth = TREE_DEPTH ∧
    (t.insert lf).zeroValue = NOTHING_UP_MY_SLEEVE ∧
    (t.insert lf).leavesPerNode = 2 ∧
    (t.insert lf).hashFn = h ∧
    (t.insert lf).nextIndex = (s ++ [lf]).length ∧
    (t.insert lf).leaves = s ++ [lf] ∧
    (t.insert lf).filledSubtrees.length = TREE_DEPTH ∧
    (t.insert lf).root =
      buildNode h NOTHING_UP_MY_SLEEVE TREE_DEPTH (s ++ [lf]) ∧
    (∀ l, l < TREE_DEPTH → (s ++ [lf]).length / 2 ^ l % 2 = 1 →
      (t.insert lf).filledSubtrees.getD l 0 =
        buildNode h NOTHING_UP_MY_SLEEVE l
          (leafSeg l ((s ++ [lf]).length / 2 ^ l - 1) (s ++ [lf]))) := by
  have hlen : (s ++ [lf]).length = s.length + 1 := by simp
  have hfs0 : ∀ j, j < t.filledSubtrees.length →
      s.length / 2 ^ (0 + j) % 2 = 1 →
      t.filledSubtrees.getD j 0 =
        buildNode h NOTHING_UP_MY_SLEEVE (0 + j)
          (leafSeg (0 + j) (s.length / 2 ^ (0 + j) - 1) (s ++ [lf])) := by
    intro j hj hpar
    rw [Nat.zero_add] at hpar ⊢
    have hone : 1 ≤ s.length / 2 ^ j := by
      rcases Nat.eq_zero_or_pos (s.length / 2 ^ j) with h0 | h1
      · rw [h0] at hpar
        simp at hpar
      · exact h1
    have hseg : leafSeg j (s.length / 2 ^ j - 1) (s ++ [lf]) =
        leafSeg j (s.length / 2 ^ j - 1) s := by
      apply leafSeg_append
      have e : s.length / 2 ^ j - 1 + 1 = s.length / 2 ^ j := by omega
      rw [e]
      exact Nat.div_mul_le_self _ _
    rw [hseg]
    rw [hf] at hj
    exact hinv j hj hpar
  have hloop := insertLoop_spec h NOTHING_UP_MY_SLEEVE (s ++ [lf]) s.length
    hlen t.filledSubtrees 0 hfs0
  have hidx : s.length / 2 ^ 0 = s.length := by rw [pow_zero, Nat.div_one]
  have hcur : buildNode h NOTHING_UP_MY_SLEEVE 0
      (leafSeg 0 (s.length / 2 ^ 0) (s ++ [lf])) = lf := by
    rw [hidx]
    unfold leafSeg
    rw [pow_zero, Nat.mul_one, List.drop_left]
    rfl
  rw [hcur, hidx, zeros_zero] at hloop
  simp only [Nat.zero_add] at hloop
  rw [hf] at hloop
  obtain ⟨hroot, hflen, hpost⟩ := hloop
  refine ⟨hd, hz, ha, hh, ?_, ?_, ?_, ?_, ?_⟩
  · show t.nextIndex + 1 = (s ++ [lf]).length
    rw [hn, hlen]
  · show t.leaves ++ [lf] = s ++ [lf]
    rw [hl]
  · show (insertLoop t.hashFn t.filledSubtrees t.nextIndex lf t.zeroValue).1.length =
      TREE_DEPTH
    rw [hh, hn, hz, hflen]
  · show (insertLoop t.hashFn t.filledSubtrees t.nextIndex lf t.zeroValue).2 =
      buildNode h NOTHING_UP_MY_SLEEVE TREE_DEPTH (s ++ [lf])
    rw [hh, hn, hz, hroot]
    have hdiv0 : s.length / 2 ^ TREE_DEPTH = 0 := Nat.div_eq_of_lt (by omega)
    rw [hdiv0]
    have hseg : leafSeg TREE_DEPTH 0 (s ++ [lf]) = s ++ [lf] := by
      unfold leafSeg
      rw [Nat.zero_mul, List.drop_zero]
      exact List.take_of_length_le (by omega)
    rw [hseg]
  · intro l hlD hpar
    show (insertLoop t.hashFn t.filledSubtrees t.nextIndex lf t.zeroValue).1.getD l 0 =
      buildNode h NOTHING_UP_MY_SLEEVE l
        (leafSeg l ((s ++ [lf]).length / 2 ^ l - 1) (s ++ [lf]))
    rw [hh, hn, hz, hlen]
    rw [hlen] at hpar
    exact hpost l hlD hpar

theorem reconstruct_spec (h : Nat → Nat → Nat) :
    ∀ s : List Nat, s.length ≤ 2 ^ TREE_DEPTH →
      (reconstructMerkleTree h s).depth = TREE_DEPTH ∧
      (reconstructMerkleTree h s).zeroValue = NOTHING_UP_MY_SLEEVE ∧
      (reconstructMerkleTree h s).leavesPerNode = 2 ∧
      (reconstructMerkleTree h s).hashFn = h ∧
      (reconstructMerkleTree h s).nextIndex = s.length ∧
      (reconstructMerkleTree h s).leaves = s ∧
      (reconstructMerkleTree h s).filledSubtrees.length = TREE_DEPTH ∧
      (reconstructMerkleTree h s).root =
        buildNode h NOTHING_UP_MY_SLEEVE TREE_DEPTH s ∧
      (∀ l, l < TREE_DEPTH → s.length / 2 ^ l % 2 = 1 →
        (reconstructMerkleTree h s).filledSubtrees.getD l 0 =
          buildNode h NOTHING_UP_MY_SLEEVE l
            (leafSeg l (s.length / 2 ^ l - 1) s)) := by
  intro s
  induction s using List.reverseRecOn with
  | nil =>
    intro _
    refine ⟨rfl, rfl, rfl, rfl, rfl, rfl,
      by simp [reconstructMerkleTree, IncrementalQuinTree.init], ?_, ?_⟩
    · show zeros h NOTHING_UP_MY_SLEEVE TREE_DEPTH =
        buildNode h NOTHING_UP_MY_SLEEVE TREE_DEPTH []
      rw [buildNode_nil]
    · intro l _ hpar
      simp at hpar
  | append_singleton s lf ih =>
    intro hcap
    have hlen : (s ++ [lf]).length = s.length + 1 := by simp
    have hcap' : s.length ≤ 2 ^ TREE_DEPTH := by omega
    obtain ⟨ihd, ihz, iha, ihh, ihn, ihl, ihf, ihr, ihinv⟩ := ih hcap'
    have hstep : reconstructMerkleTree h (s ++ [lf]) =
        (reconstructMerkleTree h s).insert lf := by
      simp [reconstructMerkleTree, List.foldl_append]
    rw [hstep]
    exact insert_spec h s lf (reconstructMerkleTree h s) ihd ihz iha ihh ihn
      ihl ihf ihinv (by omega)

theorem foldl_insert_preserves (s : List Nat) :
    ∀ t : IncrementalQuinTree,
      (s.foldl IncrementalQuinTree.insert t).depth = t.depth ∧
      (s.foldl IncrementalQuinTree.insert t).zeroValue = t.zeroValue ∧
      (s.foldl IncrementalQuinTree.insert t).leavesPerNode = t.leavesPerNode := by
  induction s with
  | nil => intro t; exact ⟨rfl, rfl, rfl⟩
  | cons a s ih =>
    intro t
    simpa [IncrementalQuinTree.insert] using ih (t.insert a)

set_option maxRecDepth 1000000

/-- C1: for every run of the withdrawal pipeline, if groth16 local
verification returns false, no state-mutating withdraw call appears in the
run's effect trace.  The source satisfies this for every run and every
verification verdict: proveSanityCheck only logs its result and the
sendProofTx call in the main IIFE is commented out, so no withdraw call is
ever dispatched, in particular not after a failed verification. -/
theorem C1_no_withdraw_after_failed_verification (inp : PipelineInput)
    (hfail : inp.verifyResult = false) :
    (mainRun inp).trace.filter Effect.isWithdraw = [] := by
  simp only [mainRun]
  split <;> simp [proveSanityCheck, Effect.isWithdraw]

theorem C1_no_withdraw_after_failed_verification_witness :
    (mainRun cexInpBadProof).trace.filter Effect.isWithdraw = [] :=
  C1_no_withdraw_after_failed_verification cexInpBadProof rfl

/-- C2 counterexample: a concrete run whose reconstructed root differs from
the ledger root (by construction it is the local root plus one) yet whose
outcome is not IntegrityError and whose trace still contains a proving-engine
call, refuting the claim that a root mismatch hard-fails the pipeline before
proof work. -/
theorem C2_claim_counterexample :
    localRootOf cexInpMismatch ≠ cexInpMismatch.ledgerRoot ∧
    (mainRun cexInpMismatch).outcome ≠ Outcome.integrityError ∧
    (mainRun cexInpMismatch).trace.filter Effect.isProve ≠ [] := by
  refine ⟨by decide, by decide, by decide⟩

/-- C2 amended: on a root mismatch the pipeline does not hard-fail with
IntegrityError; the source only logs the comparison of the two roots, and
the proving engine is still invoked whenever the owned-leaf list is long
enough to index (the only way any run avoids the engine). -/
theorem C2_mismatch_only_logged (inp : PipelineInput)
    (hmis : localRootOf inp ≠ inp.ledgerRoot) :
    (mainRun inp).outcome ≠ Outcome.integrityError ∧
    (LEAF_IDX < (ownedOf inp).length →
      (mainRun inp).trace.filter Effect.isProve ≠ []) := by
  unfold ownedOf
  simp only [mainRun]
  split
  · refine ⟨by simp, fun _ => by simp [proveSanityCheck, Effect.isProve]⟩
  · next hno => exact ⟨by simp, fun hyes => absurd hyes hno⟩

theorem C2_mismatch_only_logged_witness :
    (mainRun cexInpMismatch).outcome ≠ Outcome.integrityError ∧
    (mainRun cexInpMismatch).trace.filter Effect.isProve ≠ [] :=
  ⟨(C2_mismatch_only_logged cexInpMismatch (by decide)).1,
   (C2_mismatch_only_logged cexInpMismatch (by decide)).2 (by decide)⟩

/-- C3 counterexample: the empty-history run finds no owned leaf, yet its
outcome is not OwnershipError, and its trace shows that the accumulator
stage already ran (the contract root was read) before the script crashed on
the undefined owned-leaf index. -/
theorem C3_claim_counterexample :
    ownedOf cexInpEmpty = [] ∧
    (mainRun cexInpEmpty).outcome ≠ Outcome.ownershipError ∧
    (mainRun cexInpEmpty).trace.filter Effect.isContractCall =
      [Effect.queryNewLeafEvents, Effect.queryRoot] := by
  refine ⟨by decide, by decide, by decide⟩

/-- C3 amended: when no leaf is owned the pipeline raises no OwnershipError;
it still reconstructs the accumulator (reading the contract root) and then
crashes on the undefined index ownedLeaves[LEAF_IDX] at path generation,
never reaching the proving engine. -/
theorem C3_no_ownership_guard (inp : PipelineInput)
    (hempty : ownedOf inp = []) :
    (mainRun inp).outcome = Outcome.indexCrash ∧
    (mainRun inp).outcome ≠ Outcome.ownershipError ∧
    (mainRun inp).trace.filter Effect.isProve = [] := by
  have hlen : ¬ LEAF_IDX < (ownedOf inp).length := by
    rw [hempty]
    simp
  unfold ownedOf at hlen
  simp only [mainRun]
  rw [dif_neg hlen]
  exact ⟨rfl, by simp, rfl⟩

theorem C3_no_ownership_guard_witness :
    (mainRun cexInpEmpty).outcome = Outcome.indexCrash ∧
    (mainRun cexInpEmpty).outcome ≠ Outcome.ownershipError ∧
    (mainRun cexInpEmpty).trace.filter Effect.isProve = [] :=
  C3_no_ownership_guard cexInpEmpty (by decide)

/-- C4 counterexample: in the concrete run owning indices 0 and 2, the
pipeline's bundle proves leaf index ownedLeaves[LEAF_IDX] = 2, but the
withdraw call sendProofTx would dispatch carries the constant LEAF_IDX = 1,
so the submitted leaf-index argument differs from the proved index. -/
theorem C4_claim_counterexample :
    (mainRun cexInpTwoOwned).bundle = some cexBundle ∧
    cexBundle.leafIndex = 2 ∧
    withdrawIdxOf (sendProofTx cexBundle) = some LEAF_IDX ∧
    withdrawIdxOf (sendProofTx cexBundle) ≠ some cexBundle.leafIndex := by
  refine ⟨by decide, by decide, by decide, by decide⟩

/-- C4 amended: sendProofTx always passes the hard-coded constant LEAF_IDX
as the withdraw leaf-index argument, whatever bundle it is given; the
submitted index therefore equals the bundle's proved leaf index exactly when
that proved index happens to be LEAF_IDX. -/
theorem C4_submits_constant_index (b : ProofBundle) :
    withdrawIdxOf (sendProofTx b) = some LEAF_IDX ∧
    (withdrawIdxOf (sendProofTx b) = some b.leafIndex ↔
      b.leafIndex = LEAF_IDX) := by
  refine ⟨rfl, ?_⟩
  rw [show withdrawIdxOf (sendProofTx b) = some LEAF_IDX from rfl]
  constructor
  · intro hsome
    exact (Option.some_inj.mp hsome).symm
  · intro heq
    rw [heq]

theorem C4_submits_constant_index_witness :
    withdrawIdxOf (sendProofTx cexBundle) = some LEAF_IDX :=
  (C4_submits_constant_index cexBundle).1

/-- C5: getDepositHistory returns two sequences of the same length; the
record sequence is exactly the event sequence in emission order mapped
through Leaf.fromSol, and at every position the returned hash is the hash of
the record at the same position, each record hashed independently. -/
theorem C5_getDepositHistory_pointwise (poseidon : Leaf → Nat)
    (events : List SolLeaf) :
    (getDepositHistory poseidon events).1.length =
      (getDepositHistory poseidon events).2.length ∧
    (getDepositHistory poseidon events).1 = events.map Leaf.fromSol ∧
    (∀ (i : Nat) (lf : Leaf),
      (getDepositHistory poseidon events).1[i]? = some lf →
      (getDepositHistory poseidon events).2[i]? = some (poseidon lf)) := by
  refine ⟨by simp [getDepositHistory], rfl, ?_⟩
  intro i lf hi
  simp only [getDepositHistory] at hi ⊢
  rw [List.getElem?_map, hi]
  rfl

theorem C5_getDepositHistory_pointwise_witness :
    (getDepositHistory cexPoseidon cexEvents2).2[0]? =
      some (cexPoseidon (Leaf.fromSol ⟨⟨1, 2⟩, ⟨3, 4⟩, 10⟩)) :=
  (C5_getDepositHistory_pointwise cexPoseidon cexEvents2).2.2 0
    (Leaf.fromSol ⟨⟨1, 2⟩, ⟨3, 4⟩, 10⟩) (by decide)

/-- C6: checkLeafOwnership returns exactly the indices whose record
satisfies the ownership predicate (an index is in the result iff the history
has an owned record at it), in strictly ascending order, and the empty
history yields the empty list rather than an error; the scan is a pure
function of its arguments. -/
theorem C6_checkLeafOwnership_characterization (ownedBy : Leaf → Bool)
    (hist : List Leaf) :
    (∀ i, i ∈ checkLeafOwnership ownedBy hist ↔
      ∃ lf, hist[i]? = some lf ∧ ownedBy lf = true) ∧
    (checkLeafOwnership ownedBy hist).Pairwise (· < ·) ∧
    checkLeafOwnership ownedBy [] = [] := by
  refine ⟨?_, ?_, rfl⟩
  · intro i
    rw [checkLeafOwnership_eq]
    constructor
    · intro hmem
      obtain ⟨p, hp, hfst⟩ := List.mem_map.mp hmem
      obtain ⟨hpe, hpo⟩ := List.mem_filter.mp hp
      subst hfst
      exact ⟨p.2, List.mem_enum_iff_getElem?.mp hpe, by simpa using hpo⟩
    · rintro ⟨lf, hget, howned⟩
      apply List.mem_map.mpr
      refine ⟨(i, lf), List.mem_filter.mpr ⟨?_, by simpa using howned⟩, rfl⟩
      exact List.mem_enum_iff_getElem?.mpr (by simpa using hget)
  · rw [checkLeafOwnership_eq]
    have hsub : List.Sublist
        ((hist.enum.filter (fun p => ownedBy p.2)).map Prod.fst)
        (hist.enum.map Prod.fst) :=
      (List.filter_sublist _).map _
    rw [List.enum_map_fst] at hsub
    exact (List.pairwise_lt_range _).sublist hsub

theorem C6_checkLeafOwnership_characterization_witness :
    2 ∈ checkLeafOwnership cexInpTwoOwned.ownedBy
      (getDepositHistory cexPoseidon cexEvents3).1 :=
  ((C6_checkLeafOwnership_characterization cexInpTwoOwned.ownedBy
      (getDepositHistory cexPoseidon cexEvents3).1).1 2).mpr
    ⟨Leaf.fromSol ⟨⟨9, 10⟩, ⟨11, 12⟩, 22⟩, by decide, by decide⟩

/-- C7: the accumulator root is a pure function of the inserted leaf
sequence: two accumulators freshly built by replaying the same sequence have
the same root, and (within tree capacity) that common root is the pure batch
function buildNode of the sequence alone, independent of the incremental
frontier cache through which insert computes it. -/
theorem C7_root_pure_function (h2 : Nat → Nat → Nat) (s : List Nat)
    (t₁ t₂ : IncrementalQuinTree)
    (e₁ : t₁ = reconstructMerkleTree h2 s)
    (e₂ : t₂ = reconstructMerkleTree h2 s) :
    t₁.root = t₂.root ∧
    (s.length ≤ 2 ^ TREE_DEPTH →
      t₁.root = buildNode h2 NOTHING_UP_MY_SLEEVE TREE_DEPTH s) := by
  subst e₁
  subst e₂
  exact ⟨rfl, fun hcap => (reconstruct_spec h2 s hcap).2.2.2.2.2.2.2.1⟩

theorem C7_root_pure_function_witness :
    (reconstructMerkleTree cexHash cexLeaves).root =
      (reconstructMerkleTree cexHash cexLeaves).root ∧
    (reconstructMerkleTree cexHash cexLeaves).root =
      buildNode cexHash NOTHING_UP_MY_SLEEVE TREE_DEPTH cexLeaves :=
  ⟨(C7_root_pure_function cexHash cexLeaves _ _ rfl rfl).1,
   (C7_root_pure_function cexHash cexLeaves _ _ rfl rfl).2 (by decide)⟩

/-- C8: for every index of a previously inserted leaf, recomputing hashes
from that leaf up to the root along genMerklePath's sibling hashes and
branch selectors reproduces the accumulator's current root exactly. -/
theorem C8_genMerklePath_reproduces_root (h2 : Nat → Nat → Nat)
    (s : List Nat) (i : Nat) (hi : i < s.length)
    (hcap : s.length ≤ 2 ^ TREE_DEPTH) :
    verifyMerklePath h2 (s.getD i 0)
      ((reconstructMerkleTree h2 s).genMerklePath i) =
      (reconstructMerkleTree h2 s).root := by
  obtain ⟨hd, hz, ha, hh, hn, hl, hf, hr, hinv⟩ := reconstruct_spec h2 s hcap
  unfold IncrementalQuinTree.genMerklePath
  rw [hd, hz, hh, hl, hr]
  exact genMerklePathAux_spec h2 NOTHING_UP_MY_SLEEVE TREE_DEPTH s i hi hcap

theorem C8_genMerklePath_reproduces_root_witness :
    verifyMerklePath cexHash (cexLeaves.getD 1 0)
      ((reconstructMerkleTree cexHash cexLeaves).genMerklePath 1) =
      (reconstructMerkleTree cexHash cexLeaves).root :=
  C8_genMerklePath_reproduces_root cexHash cexLeaves 1 (by decide) (by decide)

/-- C9: the accumulator the script reconstructs is configured with fixed
depth TREE_DEPTH = 32, fixed branching factor 2, and the canonical
NOTHING_UP_MY_SLEEVE constant as the empty-hash value, and for every leaf
sequence within capacity its root equals buildNode, the batch root in which
every unfilled position is padded by the empty-hash ladder, so the root is
well-defined at any prefix length. -/
theorem C9_accumulator_configuration (h2 : Nat → Nat → Nat) (s : List Nat) :
    (reconstructMerkleTree h2 s).depth = TREE_DEPTH ∧
    TREE_DEPTH = 32 ∧
    (reconstructMerkleTree h2 s).leavesPerNode = 2 ∧
    (reconstructMerkleTree h2 s).zeroValue = NOTHING_UP_MY_SLEEVE ∧
    (s.length ≤ 2 ^ TREE_DEPTH →
      (reconstructMerkleTree h2 s).root =
        buildNode h2 NOTHING_UP_MY_SLEEVE TREE_DEPTH s) := by
  have hc := foldl_insert_preserves s
    (IncrementalQuinTree.init h2 TREE_DEPTH NOTHING_UP_MY_SLEEVE 2)
  exact ⟨hc.1, rfl, hc.2.2, hc.2.1,
    fun hcap => (reconstruct_spec h2 s hcap).2.2.2.2.2.2.2.1⟩

theorem C9_accumulator_configuration_witness :
    (reconstructMerkleTree cexHash cexLeaves).depth = TREE_DEPTH ∧
    (reconstructMerkleTree cexHash cexLeaves).root =
      buildNode cexHash NOTHING_UP_MY_SLEEVE TREE_DEPTH cexLeaves :=
  ⟨(C9_accumulator_configuration cexHash cexLeaves).1,
   (C9_accumulator_configuration cexHash cexLeaves).2.2.2.2 (by decide)⟩

/-- C10: every run leaves the ledger unchanged: the contract interactions in
any run's trace are exactly the two read-only queries (the NewLeaf event
filter and the root getter) in that order, and no state-mutating withdraw
call ever occurs, since the sendProofTx invocation is commented out. -/
theorem C10_ledger_state_unchanged (inp : PipelineInput) :
    (mainRun inp).trace.filter Effect.isContractCall =
      [Effect.queryNewLeafEvents, Effect.queryRoot] ∧
    (mainRun inp).trace.filter Effect.isWithdraw = [] := by
  simp only [mainRun]
  split <;>
    simp [proveSanityCheck, Effect.isContractCall, Effect.isWithdraw]
